import Mathlib

/-!
Shallow embedding of the move-selection and rollout core of a backgammon
engine (`crates/engine/src/evaluator.rs` and `src/rollout.rs`).

Collaborator types (`Position`, `Dice`, `Probabilities`, `GameResult`,
dice generators) are external to the provided sources; they are modelled
from their documented contracts.  Rust panics (`unwrap` on `None`, on an
incomparable `partial_cmp`, or on an empty iterator) are modelled by
`Option` results, with `none` standing for a panic.  `f32` values that
only ever flow into comparisons are modelled by `Flt` (a rational or
NaN); `f32` probabilities are modelled by exact rationals.
-/

namespace WildBg

/-- Modelled from the spec: `GameResult` is one of the six outcome
categories of a finished game (`position.rs` is not among the provided
sources). -/
inductive GameResult where
  | WinNormal
  | WinGammon
  | WinBg
  | LoseNormal
  | LoseGammon
  | LoseBg
deriving DecidableEq

/-- Modelled from the spec: `GameResult::reverse` maps Win to Lose and
back within the same magnitude class. -/
def GameResult.reverse : GameResult → GameResult
  | .WinNormal => .LoseNormal
  | .WinGammon => .LoseGammon
  | .WinBg => .LoseBg
  | .LoseNormal => .WinNormal
  | .LoseGammon => .WinGammon
  | .LoseBg => .WinBg

/-- Models the array index `result as usize` used by the rollout
histogram, with the declaration order in which the spec lists the
`GameResult` variants. -/
def GameResult.toIdx : GameResult → ℕ
  | .WinNormal => 0
  | .WinGammon => 1
  | .WinBg => 2
  | .LoseNormal => 3
  | .LoseGammon => 4
  | .LoseBg => 5

/-- Modelled from the spec: `game_state()` of the `Position` collaborator
is `Ongoing` or `GameOver(result)`. -/
inductive GameState where
  | Ongoing
  | GameOver (result : GameResult)
deriving DecidableEq

/-- Modelled from the spec: the six-category outcome distribution of the
`Probabilities` collaborator.  The Rust fields are `f32`; exact rational
arithmetic stands in for binary floating point. -/
structure Probabilities where
  win_normal : ℚ
  win_gammon : ℚ
  win_bg : ℚ
  lose_normal : ℚ
  lose_gammon : ℚ
  lose_bg : ℚ
deriving DecidableEq

/-- Modelled from the spec: `Probabilities::switch_sides` swaps each Win
category with its same-magnitude Lose category. -/
def Probabilities.switch_sides (p : Probabilities) : Probabilities :=
  { win_normal := p.lose_normal
    win_gammon := p.lose_gammon
    win_bg := p.lose_bg
    lose_normal := p.win_normal
    lose_gammon := p.win_gammon
    lose_bg := p.win_bg }

/-- Modelled from the spec: `Probabilities::new` normalizes the six
outcome counts (indexed by `GameResult.toIdx`) by their sum. -/
def Probabilities.new (counts : List ℕ) : Probabilities :=
  let sum : ℚ := (counts.sum : ℕ)
  { win_normal := (counts.getD 0 0 : ℕ) / sum
    win_gammon := (counts.getD 1 0 : ℕ) / sum
    win_bg := (counts.getD 2 0 : ℕ) / sum
    lose_normal := (counts.getD 3 0 : ℕ) / sum
    lose_gammon := (counts.getD 4 0 : ℕ) / sum
    lose_bg := (counts.getD 5 0 : ℕ) / sum }

/-- Models an `f32` value that flows into a comparison: either a
comparable number or NaN. -/
inductive Flt where
  | val (q : ℚ)
  | nan
deriving DecidableEq

/-- Models `f32::partial_cmp`: `none` exactly when NaN is involved. -/
def Flt.cmpOpt : Flt → Flt → Option Ordering
  | .val a, .val b =>
    some (if a < b then Ordering.lt else if a = b then Ordering.eq else Ordering.gt)
  | _, _ => none

/-- Both arguments are comparable numbers and the first is at least the
second; the order in which `positions_and_probabilities_by_equity` lists
its entries. -/
def Flt.Ge (a b : Flt) : Prop :=
  ∃ qa qb, a = Flt.val qa ∧ b = Flt.val qb ∧ qb ≤ qa

/-- Models `Iterator::min_by` with the panicking comparator
`|a, b| a.1.partial_cmp(&b.1).unwrap()` of `worst_position`: `none`
models both the `unwrap` panic on an empty iterator and the panic on an
incomparable (NaN) pair.  Rust's `min_by` keeps the accumulator unless
the comparison returns `Greater`, so the first minimum wins. -/
def minStep {α : Type} (acc : Option (α × Flt)) (y : α × Flt) : Option (α × Flt) :=
  match acc with
  | none => none
  | some a =>
    match Flt.cmpOpt a.2 y.2 with
    | none => none
    | some o => some (if o = Ordering.gt then y else a)

/-- The `min_by` fold itself: `none` on the empty list (the final
`unwrap` panic) and on any incomparable comparison. -/
def minByOpt {α : Type} : List (α × Flt) → Option (α × Flt)
  | [] => none
  | x :: xs => xs.foldl minStep (some x)

/-- Embedding of `Evaluator::worst_position` from `evaluator.rs`.  The
`Position` collaborator enters through `has_lost` and the evaluator
through `eval`; `none` models a panic (empty candidate list, or a NaN
metric value reaching `min_by`). -/
def worst_position {Pos : Type} (has_lost : Pos → Bool) (eval : Pos → Probabilities)
    (positions : List Pos) (value : Probabilities → Flt) : Option Pos :=
  if positions.length = 1 then positions.head?
  else
    match positions.find? has_lost with
    | some p => some p
    | none => (minByOpt (positions.map (fun pos => (pos, value (eval pos))))).map Prod.fst

/-- Embedding of `Evaluator::best_position`: `worst_position` applied to
`pos.all_positions_after_moving(dice)` (the collaborator method is the
parameter `aam`). -/
def best_position {Pos D : Type} (has_lost : Pos → Bool) (eval : Pos → Probabilities)
    (aam : Pos → D → List Pos) (pos : Pos) (dice : D)
    (value : Probabilities → Flt) : Option Pos :=
  worst_position has_lost eval (aam pos dice) value

/-- Embedding of `Evaluator::best_position_by_equity`: `best_position`
with the metric `|probabilities| probabilities.equity()`; `equity` is the
collaborator's scalar, kept abstract. -/
def best_position_by_equity {Pos D : Type} (has_lost : Pos → Bool)
    (eval : Pos → Probabilities) (aam : Pos → D → List Pos)
    (equity : Probabilities → Flt) (pos : Pos) (dice : D) : Option Pos :=
  best_position has_lost eval aam pos dice (fun probabilities => equity probabilities)

/-- Insertion step of the sort model: place `x` into an already sorted
list, `none` if a needed comparison is incomparable. -/
def insertByOpt {α : Type} (c : α → α → Option Ordering) (x : α) :
    List α → Option (List α)
  | [] => some [x]
  | y :: ys =>
    match c x y with
    | none => none
    | some Ordering.gt => (insertByOpt c x ys).map (fun l => y :: l)
    | some _ => some (x :: y :: ys)

/-- Models `slice::sort_unstable_by` with a panicking comparator.  The
source sort is unstable, so only properties every correct comparison
sort shares are used of this model: the output is a sorted permutation
of the input, no comparison happens on fewer than two elements, and with
at least two elements every element is compared at least once, so a NaN
(`none`) comparison key makes the call panic (`none`). -/
def sortByOpt {α : Type} (c : α → α → Option Ordering) : List α → Option (List α)
  | [] => some []
  | x :: xs => (sortByOpt c xs).bind (insertByOpt c x)

/-- Embedding of `Evaluator::positions_and_probabilities_by_equity`:
map every post-move position to the pair of its side-switched position
and side-switched evaluation, then sort by descending equity with the
panicking comparator `b.1.equity().partial_cmp(&a.1.equity()).unwrap()`. -/
def positions_and_probabilities_by_equity {Pos D : Type} (switchPos : Pos → Pos)
    (eval : Pos → Probabilities) (aam : Pos → D → List Pos)
    (equity : Probabilities → Flt) (position : Pos) (dice : D) :
    Option (List (Pos × Probabilities)) :=
  sortByOpt (fun a b => Flt.cmpOpt (equity b.2) (equity a.2))
    ((aam position dice).map (fun pos => (switchPos pos, (eval pos).switch_sides)))

/-- Embedding of `RandomEvaluator::eval`; the six uniform draws of
`fastrand::f32()` are passed as inputs, in the order the source draws
them. -/
def RandomEvaluator.eval
    (win_normal win_gammon win_bg lose_normal lose_gammon lose_bg : ℚ) : Probabilities :=
  let sum := win_normal + win_gammon + win_bg + lose_normal + lose_gammon + lose_bg
  { win_normal := win_normal / sum
    win_gammon := win_gammon / sum
    win_bg := win_bg / sum
    lose_normal := lose_normal / sum
    lose_gammon := lose_gammon / sum
    lose_bg := lose_bg / sum }

/-- Loop of `RolloutEvaluator::single_rollout` from `rollout.rs`.  The
wrapped evaluator's `best_position` is the parameter `bp` (the
rollout-era trait method taking the two die faces), `game_state` is
`gs`.  The mutable dice generator is modelled as the stream `gen`
consumed from offset `off` on; `fuel` bounds the loop (the Rust loop
relies on the game's termination guarantee), `none` models
non-termination within `fuel`. -/
def singleRolloutAux {Pos : Type} (bp : Pos → ℕ → ℕ → Pos) (gs : Pos → GameState)
    (first_dice : List (ℕ × ℕ)) (gen : ℕ → ℕ × ℕ) :
    ℕ → ℕ → ℕ → Pos → Option (GameResult × ℕ)
  | 0, _, _, _ => none
  | fuel + 1, iteration, off, pos =>
    let d : ℕ × ℕ :=
      if h : iteration < first_dice.length then first_dice.get ⟨iteration, h⟩ else gen off
    let off2 : ℕ := if iteration < first_dice.length then off else off + 1
    let pos2 : Pos := bp pos d.1 d.2
    match gs pos2 with
    | GameState.Ongoing => singleRolloutAux bp gs first_dice gen fuel (iteration + 1) off2 pos2
    | GameState.GameOver result =>
      some (if iteration % 2 = 0 then result.reverse else result, off2)

/-- Embedding of `RolloutEvaluator::single_rollout`: returns the game
result together with the stream offset after the consumed dice draws. -/
def single_rollout {Pos : Type} (bp : Pos → ℕ → ℕ → Pos) (gs : Pos → GameState)
    (fromPos : Pos) (first_dice : List (ℕ × ℕ)) (gen : ℕ → ℕ × ℕ) (off : ℕ)
    (fuel : ℕ) : Option (GameResult × ℕ) :=
  singleRolloutAux bp gs first_dice gen fuel 0 off fromPos

/-- Dice used at the 0-indexed ply `i` of a single rollout whose dice
stream starts at offset `off`: the forced prefix while it lasts, then
successive stream draws. -/
def rolloutDiceAt (first_dice : List (ℕ × ℕ)) (gen : ℕ → ℕ × ℕ) (off i : ℕ) : ℕ × ℕ :=
  if h : i < first_dice.length then first_dice.get ⟨i, h⟩
  else gen (off + (i - first_dice.length))

/-- Position reached after playing plies `iter, iter + 1, ..., iter + j`
of a single rollout starting from `pos`. -/
def trajFrom {Pos : Type} (bp : Pos → ℕ → ℕ → Pos) (first_dice : List (ℕ × ℕ))
    (gen : ℕ → ℕ × ℕ) (off : ℕ) (pos : Pos) (iter : ℕ) : ℕ → Pos
  | 0 => bp pos (rolloutDiceAt first_dice gen off iter).1 (rolloutDiceAt first_dice gen off iter).2
  | j + 1 =>
    bp (trajFrom bp first_dice gen off pos iter j)
      (rolloutDiceAt first_dice gen off (iter + j + 1)).1
      (rolloutDiceAt first_dice gen off (iter + j + 1)).2

/-- Position after the first `i + 1` plies of a single rollout. -/
def trajAfter {Pos : Type} (bp : Pos → ℕ → ℕ → Pos) (first_dice : List (ℕ × ℕ))
    (gen : ℕ → ℕ × ℕ) (off : ℕ) (fromPos : Pos) (i : ℕ) : Pos :=
  trajFrom bp first_dice gen off fromPos 0 i

/-- The six die faces, in the order of the `for die in 1..7` loops of
`RolloutEvaluator::eval`. -/
def dieFaces : List ℕ := [1, 2, 3, 4, 5, 6]

/-- The 1296 ordered four-face combinations `(die1, die2, die3, die4)`
of the four nested loops in `RolloutEvaluator::eval`, in loop order. -/
def allDiceCombos : List (ℕ × ℕ × ℕ × ℕ) :=
  dieFaces.product (dieFaces.product (dieFaces.product dieFaces))

/-- One iteration of the innermost loop body of `RolloutEvaluator::eval`:
run `single_rollout` with the combination as the forced two-roll prefix
and bump the histogram bucket `results[result as usize]`. -/
def rolloutStep {Pos : Type} (bp : Pos → ℕ → ℕ → Pos) (gs : Pos → GameState)
    (gen : ℕ → ℕ × ℕ) (fuel : ℕ) (pos : Pos)
    (acc : Option (List ℕ × ℕ)) (c : ℕ × ℕ × ℕ × ℕ) : Option (List ℕ × ℕ) :=
  match acc with
  | none => none
  | some (results, off) =>
    match single_rollout bp gs pos [(c.1, c.2.1), (c.2.2.1, c.2.2.2)] gen off fuel with
    | none => none
    | some (r, off2) => some (results.set r.toIdx (results.getD r.toIdx 0 + 1), off2)

/-- The histogram accumulation of `RolloutEvaluator::eval` over all 1296
dice combinations, threading the shared dice stream offset through the
simulated games. -/
def rolloutEvalHist {Pos : Type} (bp : Pos → ℕ → ℕ → Pos) (gs : Pos → GameState)
    (gen : ℕ → ℕ × ℕ) (fuel : ℕ) (pos : Pos) : Option (List ℕ × ℕ) :=
  allDiceCombos.foldl (rolloutStep bp gs gen fuel pos) (some ([0, 0, 0, 0, 0, 0], 0))

/-- Embedding of `RolloutEvaluator::eval`: the rollout histogram
normalized by `Probabilities::new`. -/
def RolloutEvaluator.eval {Pos : Type} (bp : Pos → ℕ → ℕ → Pos) (gs : Pos → GameState)
    (gen : ℕ → ℕ × ℕ) (fuel : ℕ) (pos : Pos) : Option Probabilities :=
  (rolloutEvalHist bp gs gen fuel pos).map (fun x => Probabilities.new x.1)

/-- First-occurrence minimum by key: the pure content of Rust's `min_by`
on NaN-free values. -/
def argminKey {α : Type} (f : α → ℚ) (a : α) (l : List α) : α :=
  l.foldl (fun acc y => if f acc ≤ f y then acc else y) a

/-- Concrete move function on counter positions: every ply advances the
counter by one, whatever the dice. -/
def wBp : ℕ → ℕ → ℕ → ℕ := fun p _ _ => p + 1

/-- Concrete game state: over with a normal win as soon as the counter
reaches 1 (the very first ply ends the game). -/
def wGs1 : ℕ → GameState :=
  fun p => if p = 1 then GameState.GameOver GameResult.WinNormal else GameState.Ongoing

/-- Concrete game state: over with a gammon win as soon as the counter
reaches 2 (the second ply ends the game). -/
def wGs2 : ℕ → GameState :=
  fun p => if p = 2 then GameState.GameOver GameResult.WinGammon else GameState.Ongoing

/-- Fixed dice stream. -/
def wGen : ℕ → ℕ × ℕ := fun _ => (1, 2)

/-- Trivial move function on a one-point position space. -/
def wBpU : Unit → ℕ → ℕ → Unit := fun _ _ _ => ()

/-- Game state that is immediately over with a normal win. -/
def wGsU : Unit → GameState := fun _ => GameState.GameOver GameResult.WinNormal

/-- Concrete `has_lost`: exactly the position `2` is an immediate loss. -/
def wHl2 : ℕ → Bool := fun n => n == 2

/-- Concrete `has_lost`: no position is an immediate loss. -/
def wHlF : ℕ → Bool := fun _ => false

/-- Concrete evaluator on numbered positions. -/
def wEvalN : ℕ → Probabilities :=
  fun n =>
    { win_normal := n, win_gammon := 0, win_bg := 0
      lose_normal := 0, lose_gammon := 0, lose_bg := 0 }

/-- A second, different concrete evaluator on numbered positions. -/
def wEvalN2 : ℕ → Probabilities :=
  fun n =>
    { win_normal := (10 : ℚ) - n, win_gammon := 0, win_bg := 0
      lose_normal := 0, lose_gammon := 0, lose_bg := 0 }

/-- Concrete metric: the win-normal component. -/
def wValWin : Probabilities → Flt := fun pr => Flt.val pr.win_normal

/-- Concrete metric that is NaN everywhere. -/
def wNanVal : Probabilities → Flt := fun _ => Flt.nan

/-- Key function matching `wValWin` after `wEvalN`. -/
def wQv : ℕ → ℚ := fun n => n

/-- Concrete legal-move generator on numbered positions: one move. -/
def wAamN : ℕ → Unit → List ℕ := fun n _ => [n + 1]

/-- Concrete side switch on two-point positions: an involution. -/
def wSwitch : Bool → Bool := fun b => !b

/-- Concrete evaluator on two-point positions: a sure win from `true`,
a sure loss from `false`. -/
def wEvalB : Bool → Probabilities :=
  fun b =>
    if b then
      { win_normal := 1, win_gammon := 0, win_bg := 0
        lose_normal := 0, lose_gammon := 0, lose_bg := 0 }
    else
      { win_normal := 0, win_gammon := 0, win_bg := 0
        lose_normal := 1, lose_gammon := 0, lose_bg := 0 }

/-- Concrete legal-move generator on two-point positions: two moves. -/
def wAamB : Bool → Unit → List Bool := fun _ _ => [true, false]

/-- Concrete legal-move generator on two-point positions: one move. -/
def wAam1 : Bool → Unit → List Bool := fun _ _ => [true]

/-- Concrete equity: win-normal minus lose-normal. -/
def wEquity : Probabilities → Flt := fun pr => Flt.val (pr.win_normal - pr.lose_normal)

/-- The rational value of `wEquity`. -/
def wF : Probabilities → ℚ := fun pr => pr.win_normal - pr.lose_normal

/-- Concrete equity without subtraction: the win-normal component. -/
def wEquityW : Probabilities → Flt := fun pr => Flt.val pr.win_normal

/-- Equity that is NaN everywhere. -/
def wNanEquity : Probabilities → Flt := fun _ => Flt.nan

/-- `has_lost` on two-point positions: never lost. -/
def wHlBF : Bool → Bool := fun _ => false

/-- `has_lost` on two-point positions: always lost. -/
def wHlBT : Bool → Bool := fun _ => true

/-- `find?` returns the first element satisfying the predicate: the list
splits at the returned element and everything before it fails the
predicate. -/
theorem find_eq_some_decomp {α : Type} (p : α → Bool) :
    ∀ (l : List α) (a : α), l.find? p = some a →
      ∃ pre post, l = pre ++ a :: post ∧ p a = true ∧ ∀ x ∈ pre, p x = false := by
  intro l
  induction l with
  | nil => intro a h; simp at h
  | cons y ys ih =>
    intro a h
    by_cases hy : p y = true
    · rw [List.find?_cons_of_pos _ hy] at h
      obtain rfl : y = a := by injection h
      exact ⟨[], ys, rfl, hy, by intro x hx; simp at hx⟩
    · rw [List.find?_cons_of_neg _ hy] at h
      obtain ⟨pre, post, rfl, hpa, hpre⟩ := ih a h
      refine ⟨y :: pre, post, rfl, hpa, ?_⟩
      intro x hx
      rcases List.mem_cons.mp hx with rfl | hx2
      · exact Bool.eq_false_iff.mpr hy
      · exact hpre x hx2

/-- Folding `minStep` from a dead accumulator stays dead. -/
theorem foldl_minStep_none {α : Type} :
    ∀ l : List (α × Flt), l.foldl minStep none = none := by
  intro l
  induction l with
  | nil => rfl
  | cons y ys ih => simpa [minStep] using ih

/-- Whatever `minStep` folding returns came from the accumulator or the
list. -/
theorem foldl_minStep_mem {α : Type} :
    ∀ (l : List (α × Flt)) (a m : α × Flt),
      l.foldl minStep (some a) = some m → m = a ∨ m ∈ l := by
  intro l
  induction l with
  | nil => intro a m h; left; symm; injection h
  | cons y ys ih =>
    intro a m h
    rw [List.foldl_cons] at h
    rcases h2 : minStep (some a) y with _ | a2
    · rw [h2, foldl_minStep_none] at h; cases h
    · rw [h2] at h
      have ha2 : a2 = a ∨ a2 = y := by
        simp only [minStep] at h2
        split at h2
        · cases h2
        · injection h2 with h3
          split at h3
          · exact Or.inr h3.symm
          · exact Or.inl h3.symm
      rcases ih a2 m h with rfl | hm
      · rcases ha2 with rfl | rfl
        · exact Or.inl rfl
        · exact Or.inr (List.mem_cons_self _ _)
      · exact Or.inr (List.mem_cons_of_mem _ hm)

/-- A `minByOpt` result is an element of the list. -/
theorem minByOpt_mem {α : Type} (l : List (α × Flt)) (m : α × Flt)
    (h : minByOpt l = some m) : m ∈ l := by
  cases l with
  | nil => cases h
  | cons x xs =>
    rcases foldl_minStep_mem xs x m h with rfl | hm
    · exact List.mem_cons_self _ _
    · exact List.mem_cons_of_mem _ hm

/-- On NaN-free values the `min_by` fold computes the first-occurrence
minimum by key. -/
theorem foldl_minStep_val {α : Type} (f : α → ℚ) :
    ∀ (l : List α) (a : α),
      (l.map (fun x => (x, Flt.val (f x)))).foldl minStep (some (a, Flt.val (f a))) =
        some (argminKey f a l, Flt.val (f (argminKey f a l))) := by
  intro l
  induction l with
  | nil => intro a; rfl
  | cons y ys ih =>
    intro a
    have hstep :
        minStep (some (a, Flt.val (f a))) (y, Flt.val (f y)) =
          some ((if f a ≤ f y then a else y), Flt.val (f (if f a ≤ f y then a else y))) := by
      simp only [minStep, Flt.cmpOpt]
      by_cases h1 : f a < f y
      · rw [if_pos h1]
        have : f a ≤ f y := le_of_lt h1
        simp [this]
      · rw [if_neg h1]
        by_cases h2 : f a = f y
        · rw [if_pos h2]
          have : f a ≤ f y := le_of_eq h2
          simp [this]
        · rw [if_neg h2]
          have : ¬ f a ≤ f y := by
            rcases lt_or_le (f a) (f y) with h3 | h3
            · exact absurd h3 h1
            · intro h4; exact h2 (le_antisymm h4 h3)
          simp [this]
    rw [List.map_cons, List.foldl_cons, hstep]
    have hun : argminKey f a (y :: ys) = argminKey f (if f a ≤ f y then a else y) ys := rfl
    rw [hun]
    exact ih (if f a ≤ f y then a else y)

/-- `argminKey` splits the list at its result: strictly smaller than
everything before it, at most everything in the list. -/
theorem argminKey_decomp {α : Type} (f : α → ℚ) :
    ∀ (l : List α) (a : α),
      ∃ pre post, a :: l = pre ++ argminKey f a l :: post ∧
        (∀ x ∈ pre, f (argminKey f a l) < f x) ∧
        (∀ x ∈ a :: l, f (argminKey f a l) ≤ f x) := by
  intro l
  induction l with
  | nil =>
    intro a
    exact ⟨[], [], rfl, by intro x hx; simp at hx,
      by intro x hx; simp at hx; rw [hx]; exact le_of_eq rfl⟩
  | cons y ys ih =>
    intro a
    have hun : argminKey f a (y :: ys) = argminKey f (if f a ≤ f y then a else y) ys := rfl
    by_cases hay : f a ≤ f y
    · rw [hun, if_pos hay]
      obtain ⟨pre, post, hsplit, hpre, hmin⟩ := ih a
      cases pre with
      | nil =>
        simp only [List.nil_append] at hsplit
        have hm : argminKey f a ys = a := by
          have := hsplit
          injection this with h1 h2
          exact h1.symm
        refine ⟨[], y :: ys, ?_, by intro x hx; simp at hx, ?_⟩
        · rw [hm]; rfl
        · intro x hx
          rw [hm]
          rcases List.mem_cons.mp hx with rfl | hx2
          · exact le_refl _
          · rcases List.mem_cons.mp hx2 with rfl | hx3
            · exact hay
            · have hx4 : x ∈ a :: ys := List.mem_cons_of_mem _ hx3
              have := hmin x hx4
              rw [hm] at this
              exact this
      | cons z pre2 =>
        rw [List.cons_append, List.cons.injEq] at hsplit
        obtain ⟨hz, htail⟩ := hsplit
        have haz : a ∈ z :: pre2 := by rw [← hz]; exact List.mem_cons_self _ _
        refine ⟨a :: y :: pre2, post, ?_, ?_, ?_⟩
        · rw [List.cons_append, List.cons_append, ← htail]
        · intro x hx
          rcases List.mem_cons.mp hx with rfl | hx2
          · exact hpre x haz
          · rcases List.mem_cons.mp hx2 with rfl | hx3
            · exact lt_of_lt_of_le (hpre a haz) hay
            · exact hpre x (List.mem_cons_of_mem _ hx3)
        · intro x hx
          rcases List.mem_cons.mp hx with rfl | hx2
          · exact le_of_lt (hpre x haz)
          · rcases List.mem_cons.mp hx2 with rfl | hx3
            · exact le_trans (le_of_lt (hpre a haz)) hay
            · exact hmin x (List.mem_cons_of_mem _ hx3)
    · rw [hun, if_neg hay]
      have hya : f y < f a := lt_of_not_le hay
      obtain ⟨pre, post, hsplit, hpre, hmin⟩ := ih y
      have hmy : f (argminKey f y ys) ≤ f y := hmin y (List.mem_cons_self _ _)
      refine ⟨a :: pre, post, ?_, ?_, ?_⟩
      · rw [List.cons_append, ← hsplit]
      · intro x hx
        rcases List.mem_cons.mp hx with rfl | hx2
        · exact lt_of_le_of_lt hmy hya
        · exact hpre x hx2
      · intro x hx
        rcases List.mem_cons.mp hx with rfl | hx2
        · exact le_of_lt (lt_of_le_of_lt hmy hya)
        · exact hmin x hx2

/-- A NaN value in the accumulator or anywhere in the list kills the
`min_by` fold. -/
theorem foldl_minStep_nan {α : Type} :
    ∀ (l : List (α × Flt)) (a : α × Flt),
      ((a.2 = Flt.nan ∧ l ≠ []) ∨ (∃ x ∈ l, x.2 = Flt.nan)) →
        l.foldl minStep (some a) = none := by
  intro l
  induction l with
  | nil =>
    intro a h
    rcases h with ⟨_, h2⟩ | ⟨x, hx, _⟩
    · exact absurd rfl h2
    · simp at hx
  | cons y ys ih =>
    intro a h
    rw [List.foldl_cons]
    by_cases ha : a.2 = Flt.nan
    · have : minStep (some a) y = none := by
        simp only [minStep, ha]
        cases hy : y.2 <;> rfl
      rw [this, foldl_minStep_none]
    · by_cases hy : y.2 = Flt.nan
      · have : minStep (some a) y = none := by
          simp only [minStep, hy]
          cases ha2 : a.2
          · rfl
          · exact absurd ha2 ha
        rw [this, foldl_minStep_none]
      · have hnan : ∃ x ∈ ys, x.2 = Flt.nan := by
          rcases h with ⟨ha2, _⟩ | ⟨x, hx, hx2⟩
          · exact absurd ha2 ha
          · rcases List.mem_cons.mp hx with rfl | hx3
            · exact absurd hx2 hy
            · exact ⟨x, hx3, hx2⟩
        rcases hstep : minStep (some a) y with _ | a2
        · exact foldl_minStep_none ys
        · exact ih a2 (Or.inr hnan)

/-- A successful `worst_position` returns an element of its input list. -/
theorem worst_position_mem {Pos : Type} (has_lost : Pos → Bool)
    (eval : Pos → Probabilities) (value : Probabilities → Flt)
    (positions : List Pos) (p : Pos)
    (h : worst_position has_lost eval positions value = some p) : p ∈ positions := by
  unfold worst_position at h
  by_cases hlen : positions.length = 1
  · rw [if_pos hlen] at h
    cases positions with
    | nil => cases h
    | cons x xs =>
      injection h with h2
      rw [← h2]
      exact List.mem_cons_self _ _
  · rw [if_neg hlen] at h
    rcases hf : positions.find? has_lost with _ | q
    · rw [hf] at h
      rw [Option.map_eq_some'] at h
      obtain ⟨m, hm, hmp⟩ := h
      obtain ⟨x, hx, hxm⟩ := List.mem_map.mp (minByOpt_mem _ m hm)
      rw [← hmp, ← hxm]
      exact hx
    · rw [hf] at h
      injection h with h2
      rw [← h2]
      exact List.mem_of_find?_eq_some hf

/-- C8: `worst_position` on an empty candidate list panics (modelled as
`none`): the `unwrap` behind `min_by` of an empty iterator fails, for
every evaluator and metric, instead of returning a position. -/
theorem worst_position_empty_panics {Pos : Type} (has_lost : Pos → Bool)
    (eval : Pos → Probabilities) (value : Probabilities → Flt) :
    worst_position has_lost eval ([] : List Pos) value = none := by
  simp [worst_position, minByOpt]

/-- C10: move selection never fabricates a position: a successful
`worst_position` returns an element of its input slice, a successful
`best_position` returns an element of `all_positions_after_moving`, and
when `all_positions_after_moving` yields only the unchanged
(side-switched) position, that position is returned. -/
theorem selection_stays_in_candidates {Pos D : Type} (has_lost : Pos → Bool)
    (eval : Pos → Probabilities) (value : Probabilities → Flt)
    (positions : List Pos) (aam : Pos → D → List Pos) (pos : Pos) (dice : D) :
    (∀ p, worst_position has_lost eval positions value = some p → p ∈ positions) ∧
    (∀ p, best_position has_lost eval aam pos dice value = some p → p ∈ aam pos dice) ∧
    (∀ q, aam pos dice = [q] → best_position has_lost eval aam pos dice value = some q) := by
  refine ⟨fun p hp => worst_position_mem _ _ _ _ _ hp,
    fun p hp => worst_position_mem _ _ _ _ _ hp, ?_⟩
  intro q hq
  show worst_position has_lost eval (aam pos dice) value = some q
  rw [hq]
  simp [worst_position]

/-- Closed witness for C10 at concrete inputs. -/
theorem selection_stays_in_candidates_witness :
    worst_position wHl2 wEvalN [1, 2, 3] wValWin = some 2 ∧ ((2 : ℕ) ∈ [1, 2, 3]) ∧
    wAamN 5 () = [6] ∧ best_position wHlF wEvalN wAamN 5 () wValWin = some 6 ∧
    ((6 : ℕ) ∈ wAamN 5 ()) :=
  ⟨by decide,
   (selection_stays_in_candidates wHl2 wEvalN wValWin [1, 2, 3] wAamN 5 ()).1 2 (by decide),
   by decide,
   (selection_stays_in_candidates wHlF wEvalN wValWin [1, 2, 3] wAamN 5 ()).2.2 6 (by decide),
   (selection_stays_in_candidates wHlF wEvalN wValWin [1, 2, 3] wAamN 5 ()).2.1 6 (by decide)⟩

/-- C3: the two short-circuits of `worst_position`, in priority order:
a single candidate is returned as is, and otherwise the first immediate
loss is returned; in both cases for every evaluator and metric alike, so
no metric value is computed. -/
theorem worst_position_short_circuits {Pos : Type} (has_lost : Pos → Bool)
    (eval1 eval2 : Pos → Probabilities) (value1 value2 : Probabilities → Flt)
    (positions : List Pos) :
    (∀ p, positions = [p] → worst_position has_lost eval1 positions value1 = some p) ∧
    (positions.length ≠ 1 → (∃ q ∈ positions, has_lost q = true) →
      worst_position has_lost eval1 positions value1 =
        worst_position has_lost eval2 positions value2 ∧
      ∃ pre p post, positions = pre ++ p :: post ∧ has_lost p = true ∧
        (∀ x ∈ pre, has_lost x = false) ∧
        worst_position has_lost eval1 positions value1 = some p) := by
  constructor
  · intro p hp
    subst hp
    simp [worst_position]
  · intro hlen hex
    rcases hf : positions.find? has_lost with _ | q
    · exfalso
      obtain ⟨q, hq, hql⟩ := hex
      exact List.find?_eq_none.mp hf q hq hql
    · have h1 : worst_position has_lost eval1 positions value1 = some q := by
        simp only [worst_position, if_neg hlen, hf]
      have h2 : worst_position has_lost eval2 positions value2 = some q := by
        simp only [worst_position, if_neg hlen, hf]
      obtain ⟨pre, post, hsp, hpq, hpre⟩ := find_eq_some_decomp has_lost positions q hf
      exact ⟨h1.trans h2.symm, pre, q, post, hsp, hpq, hpre, h1⟩

/-- Closed witness for C3 at concrete inputs: the immediate loss `2` is
selected under two different evaluators, although the metric would have
preferred position `1`. -/
theorem worst_position_short_circuits_witness :
    (([5] : List ℕ) = [5] ∧ worst_position wHl2 wEvalN [5] wValWin = some 5) ∧
    (([1, 2, 3] : List ℕ).length ≠ 1 ∧ (∃ q ∈ ([1, 2, 3] : List ℕ), wHl2 q = true) ∧
      (worst_position wHl2 wEvalN [1, 2, 3] wValWin =
          worst_position wHl2 wEvalN2 [1, 2, 3] wValWin ∧
        ∃ pre p post, ([1, 2, 3] : List ℕ) = pre ++ p :: post ∧ wHl2 p = true ∧
          (∀ x ∈ pre, wHl2 x = false) ∧
          worst_position wHl2 wEvalN [1, 2, 3] wValWin = some p)) :=
  ⟨⟨rfl, (worst_position_short_circuits wHl2 wEvalN wEvalN2 wValWin wValWin [5]).1 5 rfl⟩,
   by decide, by decide,
   (worst_position_short_circuits wHl2 wEvalN wEvalN2 wValWin wValWin
     [1, 2, 3]).2 (by decide) (by decide)⟩

/-- C4: with more than one candidate, none an immediate loss, and all
metric values comparable, `worst_position` returns the first-occurring
candidate attaining the minimum metric value (stable min). -/
theorem worst_position_stable_min {Pos : Type} (has_lost : Pos → Bool)
    (eval : Pos → Probabilities) (value : Probabilities → Flt)
    (positions : List Pos) (qv : Pos → ℚ)
    (hlen : 1 < positions.length)
    (hnl : ∀ p ∈ positions, has_lost p = false)
    (hv : ∀ p ∈ positions, value (eval p) = Flt.val (qv p)) :
    ∃ pre p post, positions = pre ++ p :: post ∧
      worst_position has_lost eval positions value = some p ∧
      (∀ x ∈ positions, qv p ≤ qv x) ∧
      (∀ x ∈ pre, qv p < qv x) := by
  cases positions with
  | nil => simp at hlen
  | cons a t =>
    have hlen2 : (a :: t).length ≠ 1 := by
      simp only [List.length_cons] at hlen ⊢
      omega
    have hf : (a :: t).find? has_lost = none := by
      rw [List.find?_eq_none]
      intro x hx
      rw [hnl x hx]
      simp
    have hmap : (a :: t).map (fun p => (p, value (eval p))) =
        (a :: t).map (fun p => (p, Flt.val (qv p))) :=
      List.map_congr_left (by intro p hp; rw [hv p hp])
    have hmin : minByOpt ((a :: t).map (fun p => (p, Flt.val (qv p)))) =
        some (argminKey qv a t, Flt.val (qv (argminKey qv a t))) :=
      foldl_minStep_val qv t a
    have hworst : worst_position has_lost eval (a :: t) value =
        some (argminKey qv a t) := by
      simp only [worst_position, if_neg hlen2, hf]
      rw [hmap, hmin]
      rfl
    obtain ⟨pre, post, hsplit, hpre, hminle⟩ := argminKey_decomp qv t a
    exact ⟨pre, argminKey qv a t, post, hsplit, hworst, hminle, hpre⟩

/-- Closed witness for C4 at a concrete input with a tied minimum: the
first of the two positions `1` is returned. -/
theorem worst_position_stable_min_witness :
    (1 < ([3, 1, 4, 1] : List ℕ).length) ∧
    (∀ p ∈ ([3, 1, 4, 1] : List ℕ), wHlF p = false) ∧
    (∀ p ∈ ([3, 1, 4, 1] : List ℕ), wValWin (wEvalN p) = Flt.val (wQv p)) ∧
    (∃ pre p post, ([3, 1, 4, 1] : List ℕ) = pre ++ p :: post ∧
      worst_position wHlF wEvalN [3, 1, 4, 1] wValWin = some p ∧
      (∀ x ∈ ([3, 1, 4, 1] : List ℕ), wQv p ≤ wQv x) ∧
      (∀ x ∈ pre, wQv p < wQv x)) :=
  ⟨by decide, by decide, by decide,
   worst_position_stable_min wHlF wEvalN wValWin [3, 1, 4, 1] wQv
     (by decide) (by decide) (by decide)⟩

/-- A successful insertion returns a permutation of the element and the
old list. -/
theorem insertByOpt_perm {α : Type} (c : α → α → Option Ordering) (x : α) :
    ∀ (ys l : List α), insertByOpt c x ys = some l → l.Perm (x :: ys) := by
  intro ys
  induction ys with
  | nil =>
    intro l h
    injection h with h2
    rw [← h2]
  | cons y ys ih =>
    intro l h
    simp only [insertByOpt] at h
    split at h
    · cases h
    · rw [Option.map_eq_some'] at h
      obtain ⟨l2, hl2, hl⟩ := h
      rw [← hl]
      exact ((ih l2 hl2).cons y).trans (List.Perm.swap x y ys)
    · injection h with h2
      rw [← h2]

/-- A successful sort returns a permutation of its input. -/
theorem sortByOpt_perm {α : Type} (c : α → α → Option Ordering) :
    ∀ (l l2 : List α), sortByOpt c l = some l2 → l2.Perm l := by
  intro l
  induction l with
  | nil =>
    intro l2 h
    injection h with h2
    rw [← h2]
  | cons x xs ih =>
    intro l2 h
    simp only [sortByOpt] at h
    rw [Option.bind_eq_some] at h
    obtain ⟨ls, hls, hins⟩ := h
    exact (insertByOpt_perm c x ls l2 hins).trans ((ih ls hls).cons x)

/-- A comparison answering `lt` or `eq` orders the values weakly. -/
theorem cmpOpt_le {a b : Flt}
    (h : Flt.cmpOpt a b = some Ordering.lt ∨ Flt.cmpOpt a b = some Ordering.eq) :
    Flt.Ge b a := by
  cases a with
  | nan => simp [Flt.cmpOpt] at h
  | val qa =>
    cases b with
    | nan => simp [Flt.cmpOpt] at h
    | val qb =>
      simp only [Flt.cmpOpt] at h
      by_cases h1 : qa < qb
      · exact ⟨qb, qa, rfl, rfl, le_of_lt h1⟩
      · rw [if_neg h1] at h
        by_cases h2 : qa = qb
        · exact ⟨qb, qa, rfl, rfl, le_of_eq h2⟩
        · rw [if_neg h2] at h
          rcases h with h | h <;> (injection h with h3; cases h3)

/-- A comparison answering `gt` orders the values strictly. -/
theorem cmpOpt_gt {a b : Flt} (h : Flt.cmpOpt a b = some Ordering.gt) : Flt.Ge a b := by
  cases a with
  | nan => simp [Flt.cmpOpt] at h
  | val qa =>
    cases b with
    | nan => simp [Flt.cmpOpt] at h
    | val qb =>
      simp only [Flt.cmpOpt] at h
      by_cases h1 : qa < qb
      · rw [if_pos h1] at h
        injection h with h3
        cases h3
      · rw [if_neg h1] at h
        by_cases h2 : qa = qb
        · rw [if_pos h2] at h
          injection h with h3
          cases h3
        · exact ⟨qa, qb, rfl, rfl, le_of_not_lt h1⟩

/-- `Flt.Ge` is transitive. -/
theorem flt_ge_trans {a b c : Flt} (h1 : Flt.Ge a b) (h2 : Flt.Ge b c) : Flt.Ge a c := by
  obtain ⟨qa, qb, ha, hb, hba⟩ := h1
  obtain ⟨qb2, qc, hb2, hc, hcb⟩ := h2
  have hq : qb = qb2 := by
    rw [hb] at hb2
    injection hb2
  exact ⟨qa, qc, ha, hc, le_trans hcb (hq ▸ hba)⟩

/-- Equation: inserting past a `none` comparison panics. -/
theorem insertByOpt_none {α : Type} (c : α → α → Option Ordering) (x y : α) (ys : List α)
    (hc : c x y = none) : insertByOpt c x (y :: ys) = none := by
  simp only [insertByOpt, hc]

/-- Equation: a `gt` comparison sends the insertion past the head. -/
theorem insertByOpt_gt {α : Type} (c : α → α → Option Ordering) (x y : α) (ys : List α)
    (hc : c x y = some Ordering.gt) :
    insertByOpt c x (y :: ys) = (insertByOpt c x ys).map (fun l => y :: l) := by
  simp only [insertByOpt, hc]

/-- Equation: a non-`gt` comparison places the element before the head. -/
theorem insertByOpt_stay {α : Type} (c : α → α → Option Ordering) (x y : α) (ys : List α)
    (o : Ordering) (hc : c x y = some o) (ho : o ≠ Ordering.gt) :
    insertByOpt c x (y :: ys) = some (x :: y :: ys) := by
  rcases o with _ | _ | _
  · simp only [insertByOpt, hc]
  · simp only [insertByOpt, hc]
  · exact absurd rfl ho

/-- A successful insertion into a sorted list is sorted, for a sort
relation matching the comparator. -/
theorem insertByOpt_pairwise {α : Type} (c : α → α → Option Ordering) (S : α → α → Prop)
    (hle : ∀ x y, c x y = some Ordering.lt ∨ c x y = some Ordering.eq → S x y)
    (hgt : ∀ x y, c x y = some Ordering.gt → S y x)
    (htr : ∀ x y z, S x y → S y z → S x z) (x : α) :
    ∀ (ys l : List α), insertByOpt c x ys = some l → ys.Pairwise S → l.Pairwise S := by
  intro ys
  induction ys with
  | nil =>
    intro l h hp
    injection h with h2
    rw [← h2]
    simp
  | cons y ys ih =>
    intro l h hp
    rcases hc : c x y with _ | o
    · rw [insertByOpt_none c x y ys hc] at h
      cases h
    · by_cases hogt : o = Ordering.gt
      · subst hogt
        rw [insertByOpt_gt c x y ys hc] at h
        rw [Option.map_eq_some'] at h
        obtain ⟨l2, hl2, hl⟩ := h
        rw [← hl]
        rw [List.pairwise_cons] at hp ⊢
        obtain ⟨hy, hys⟩ := hp
        refine ⟨?_, ih l2 hl2 hys⟩
        intro z hz
        rcases List.mem_cons.mp ((insertByOpt_perm c x ys l2 hl2).mem_iff.mp hz) with hzx | hz2
        · rw [hzx]
          exact hgt x y hc
        · exact hy z hz2
      · rw [insertByOpt_stay c x y ys o hc hogt] at h
        injection h with h2
        rw [← h2]
        have hxy : S x y := by
          apply hle x y
          rcases o with _ | _ | _
          · exact Or.inl hc
          · exact Or.inr hc
          · exact absurd rfl hogt
        rw [List.pairwise_cons] at hp
        obtain ⟨hy, hys⟩ := hp
        rw [List.pairwise_cons]
        refine ⟨?_, List.pairwise_cons.mpr ⟨hy, hys⟩⟩
        intro z hz
        rcases List.mem_cons.mp hz with rfl | hz2
        · exact hxy
        · exact htr x y z hxy (hy z hz2)

/-- A successful sort is sorted, for a sort relation matching the
comparator. -/
theorem sortByOpt_pairwise {α : Type} (c : α → α → Option Ordering) (S : α → α → Prop)
    (hle : ∀ x y, c x y = some Ordering.lt ∨ c x y = some Ordering.eq → S x y)
    (hgt : ∀ x y, c x y = some Ordering.gt → S y x)
    (htr : ∀ x y z, S x y → S y z → S x z) :
    ∀ (l l2 : List α), sortByOpt c l = some l2 → l2.Pairwise S := by
  intro l
  induction l with
  | nil =>
    intro l2 h
    injection h with h2
    rw [← h2]
    simp
  | cons x xs ih =>
    intro l2 h
    simp only [sortByOpt] at h
    rw [Option.bind_eq_some] at h
    obtain ⟨ls, hls, hins⟩ := h
    exact insertByOpt_pairwise c S hle hgt htr x ls l2 hins (ih ls hls)

/-- C5: a successful `positions_and_probabilities_by_equity` call
returns exactly one entry per post-move position — the side-switched
position paired with the side-switched evaluation — as a sequence sorted
by descending equity; the result is a function of its inputs, hence
deterministic. -/
theorem pppe_sorted_permutation {Pos D : Type} (switchPos : Pos → Pos)
    (eval : Pos → Probabilities) (aam : Pos → D → List Pos)
    (equity : Probabilities → Flt) (position : Pos) (dice : D)
    (l : List (Pos × Probabilities))
    (h : positions_and_probabilities_by_equity switchPos eval aam equity position dice =
      some l) :
    l.Perm ((aam position dice).map (fun pos => (switchPos pos, (eval pos).switch_sides))) ∧
    l.Pairwise (fun a b => Flt.Ge (equity a.2) (equity b.2)) := by
  unfold positions_and_probabilities_by_equity at h
  constructor
  · exact sortByOpt_perm _ _ _ h
  · refine sortByOpt_pairwise _ _ ?_ ?_ ?_ _ _ h
    · intro x y hxy
      exact cmpOpt_le hxy
    · intro x y hxy
      exact cmpOpt_gt hxy
    · intro x y z hxy hyz
      exact flt_ge_trans hxy hyz

/-- Closed witness for C5 at concrete inputs. -/
theorem pppe_sorted_permutation_witness :
    positions_and_probabilities_by_equity wSwitch wEvalB wAamB wEquityW true () =
      some [(true, { win_normal := 1, win_gammon := 0, win_bg := 0
                     lose_normal := 0, lose_gammon := 0, lose_bg := 0 }),
            (false, { win_normal := 0, win_gammon := 0, win_bg := 0
                      lose_normal := 1, lose_gammon := 0, lose_bg := 0 })] ∧
    ([(true, ({ win_normal := 1, win_gammon := 0, win_bg := 0
                lose_normal := 0, lose_gammon := 0, lose_bg := 0 } : Probabilities)),
      (false, { win_normal := 0, win_gammon := 0, win_bg := 0
                lose_normal := 1, lose_gammon := 0, lose_bg := 0 })].Perm
        ((wAamB true ()).map (fun pos => (wSwitch pos, (wEvalB pos).switch_sides))) ∧
     List.Pairwise (fun a b => Flt.Ge (wEquityW a.2) (wEquityW b.2))
       [(true, ({ win_normal := 1, win_gammon := 0, win_bg := 0
                  lose_normal := 0, lose_gammon := 0, lose_bg := 0 } : Probabilities)),
        (false, { win_normal := 0, win_gammon := 0, win_bg := 0
                  lose_normal := 1, lose_gammon := 0, lose_bg := 0 })]) :=
  ⟨by decide,
   pppe_sorted_permutation wSwitch wEvalB wAamB wEquityW true () _ (by decide)⟩

/-- Comparisons against NaN on the right are incomparable. -/
theorem cmpOpt_nan_right (a : Flt) : Flt.cmpOpt a Flt.nan = none := by
  cases a <;> rfl

/-- Comparisons against NaN on the left are incomparable. -/
theorem cmpOpt_nan_left (a : Flt) : Flt.cmpOpt Flt.nan a = none := by
  cases a <;> rfl

/-- With at least two elements, a NaN-carrying element makes the sort
panic: every element is compared at least once. -/
theorem sortByOpt_nan {α : Type} (c : α → α → Option Ordering) (P : α → Prop)
    (hc : ∀ x y, P x ∨ P y → c x y = none) :
    ∀ l : List α, 2 ≤ l.length → (∃ x ∈ l, P x) → sortByOpt c l = none := by
  intro l
  induction l with
  | nil => intro hlen; simp at hlen
  | cons x xs ih =>
    intro hlen hex
    simp only [sortByOpt]
    rcases hs : sortByOpt c xs with _ | ls
    · rfl
    · have hperm := sortByOpt_perm c xs ls hs
      show insertByOpt c x ls = none
      rcases hex with ⟨z, hz, hPz⟩
      rcases List.mem_cons.mp hz with hzx | hz2
      · cases ls with
        | nil =>
          have hxs0 : xs = [] := List.Perm.eq_nil hperm.symm
          rw [hxs0] at hlen
          simp at hlen
        | cons a as =>
          rw [hzx] at hPz
          exact insertByOpt_none c x a as (hc x a (Or.inl hPz))
      · by_cases hxs2 : 2 ≤ xs.length
        · rw [ih hxs2 ⟨z, hz2, hPz⟩] at hs
          cases hs
        · have hxs1 : xs.length = 1 := by
            have h1 : 1 ≤ xs.length := List.length_pos.mpr (List.ne_nil_of_mem hz2)
            omega
          obtain ⟨w, hw⟩ := List.length_eq_one.mp hxs1
          subst hw
          have hzw : z = w := by simpa using hz2
          subst hzw
          have hlsw : ls = [z] := List.perm_singleton.mp hperm
          rw [hlsw]
          exact insertByOpt_none c x z [] (hc x z (Or.inr hPz))

/-- C7 (amended): a NaN metric value during move selection panics: in
`worst_position` whenever full evaluation is reached, and in the equity
sort of `positions_and_probabilities_by_equity` whenever at least two
entries are sorted; with a single entry the sort performs no
comparison. -/
theorem nan_metric_panics {Pos Pos2 D : Type} (has_lost : Pos → Bool)
    (eval : Pos → Probabilities) (value : Probabilities → Flt)
    (positions : List Pos) (switchPos : Pos2 → Pos2) (eval2 : Pos2 → Probabilities)
    (aam : Pos2 → D → List Pos2)
    (equity : Probabilities → Flt) (position : Pos2) (dice : D) :
    (positions.length ≠ 1 → positions.find? has_lost = none →
      (∃ p ∈ positions, value (eval p) = Flt.nan) →
      worst_position has_lost eval positions value = none) ∧
    (1 < (aam position dice).length →
      (∃ p ∈ aam position dice, equity ((eval2 p).switch_sides) = Flt.nan) →
      positions_and_probabilities_by_equity switchPos eval2 aam equity position dice =
        none) := by
  constructor
  · intro hlen hfind hex
    simp only [worst_position, if_neg hlen, hfind]
    cases positions with
    | nil =>
      obtain ⟨p, hp, _⟩ := hex
      simp at hp
    | cons a t =>
      have ht : t ≠ [] := by
        intro he
        rw [he] at hlen
        exact hlen rfl
      have hnone :
          minByOpt ((a :: t).map (fun pos => (pos, value (eval pos)))) = none := by
        show (t.map (fun pos => (pos, value (eval pos)))).foldl minStep
          (some (a, value (eval a))) = none
        apply foldl_minStep_nan
        obtain ⟨p, hp, hpn⟩ := hex
        rcases List.mem_cons.mp hp with hpa | hpt
        · left
          refine ⟨by rw [← hpa]; exact hpn, ?_⟩
          intro he
          rw [List.map_eq_nil_iff] at he
          exact ht he
        · right
          exact ⟨(p, value (eval p)), List.mem_map_of_mem _ hpt, hpn⟩
      rw [hnone]
      rfl
  · intro hlen hex
    unfold positions_and_probabilities_by_equity
    apply sortByOpt_nan _ (fun x => equity x.2 = Flt.nan)
    · intro x y hxy
      rcases hxy with hx | hy
      · rw [hx]
        exact cmpOpt_nan_right _
      · rw [hy]
        exact cmpOpt_nan_left _
    · rw [List.length_map]
      omega
    · obtain ⟨p, hp, hpn⟩ := hex
      exact ⟨(switchPos p, (eval2 p).switch_sides), List.mem_map_of_mem _ hp, hpn⟩

/-- Closed witness for C7 at concrete inputs. -/
theorem nan_metric_panics_witness :
    (([1, 2, 3] : List ℕ).length ≠ 1 ∧ ([1, 2, 3] : List ℕ).find? wHlF = none ∧
      (∃ p ∈ ([1, 2, 3] : List ℕ), wNanVal (wEvalN p) = Flt.nan) ∧
      worst_position wHlF wEvalN [1, 2, 3] wNanVal = none) ∧
    (1 < (wAamB true ()).length ∧
      (∃ p ∈ wAamB true (), wNanEquity ((wEvalB p).switch_sides) = Flt.nan) ∧
      positions_and_probabilities_by_equity wSwitch wEvalB wAamB wNanEquity true () =
        none) :=
  ⟨⟨by decide, by decide, by decide,
    (nan_metric_panics wHlF wEvalN wNanVal [1, 2, 3] wSwitch wEvalB wAamB wNanEquity
      true ()).1 (by decide) (by decide) (by decide)⟩,
   ⟨by decide, by decide,
    (nan_metric_panics wHlF wEvalN wNanVal [1, 2, 3] wSwitch wEvalB wAamB wNanEquity
      true ()).2 (by decide) (by decide)⟩⟩

/-- Counterexample to C7 as stated: with a single candidate whose equity
is NaN, the equity sort performs no comparison, and the call returns the
single entry instead of failing. -/
theorem nan_metric_panics_cx :
    wNanEquity ((wEvalB true).switch_sides) = Flt.nan ∧
    positions_and_probabilities_by_equity wSwitch wEvalB wAam1 wNanEquity true () =
      some [(false, { win_normal := 0, win_gammon := 0, win_bg := 0
                      lose_normal := 1, lose_gammon := 0, lose_bg := 0 })] ∧
    positions_and_probabilities_by_equity wSwitch wEvalB wAam1 wNanEquity true () ≠
      none := by
  refine ⟨rfl, by decide, ?_⟩
  have h2 : positions_and_probabilities_by_equity wSwitch wEvalB wAam1 wNanEquity
      true () =
      some [(false, { win_normal := 0, win_gammon := 0, win_bg := 0
                      lose_normal := 1, lose_gammon := 0, lose_bg := 0 })] := by
    decide
  rw [h2]
  simp

/-- Insertion succeeds when the element is comparable with every list
element. -/
theorem insertByOpt_total {α : Type} (c : α → α → Option Ordering) (x : α) :
    ∀ ys : List α, (∀ y ∈ ys, c x y ≠ none) → ∃ l, insertByOpt c x ys = some l := by
  intro ys
  induction ys with
  | nil => intro h; exact ⟨[x], rfl⟩
  | cons y ys ih =>
    intro h
    rcases hc : c x y with _ | o
    · exact absurd hc (h y (List.mem_cons_self _ _))
    · by_cases hogt : o = Ordering.gt
      · subst hogt
        obtain ⟨l, hl⟩ := ih (fun z hz => h z (List.mem_cons_of_mem _ hz))
        refine ⟨y :: l, ?_⟩
        rw [insertByOpt_gt c x y ys hc, hl]
        rfl
      · exact ⟨x :: y :: ys, insertByOpt_stay c x y ys o hc hogt⟩

/-- The sort succeeds when all pairwise comparisons are comparable. -/
theorem sortByOpt_total {α : Type} (c : α → α → Option Ordering) :
    ∀ l : List α, (∀ x ∈ l, ∀ y ∈ l, c x y ≠ none) →
      ∃ l2, sortByOpt c l = some l2 := by
  intro l
  induction l with
  | nil => intro h; exact ⟨[], rfl⟩
  | cons x xs ih =>
    intro h
    obtain ⟨ls, hls⟩ :=
      ih (fun a ha b hb =>
        h a (List.mem_cons_of_mem _ ha) b (List.mem_cons_of_mem _ hb))
    have hperm := sortByOpt_perm c xs ls hls
    obtain ⟨l2, hl2⟩ :=
      insertByOpt_total c x ls
        (fun y hy =>
          h x (List.mem_cons_self _ _) y (List.mem_cons_of_mem _ (hperm.subset hy)))
    refine ⟨l2, ?_⟩
    simp only [sortByOpt]
    rw [hls]
    exact hl2

/-- Switching sides twice on a distribution is the identity. -/
theorem switch_sides_switch_sides (pr : Probabilities) :
    pr.switch_sides.switch_sides = pr := rfl

/-- C6 (amended): when no post-move candidate is an immediate loss, the
collaborator equity is comparable and anti-commutes with side switching,
the position side switch is an involution, and candidate equities are
pairwise distinct, `positions_and_probabilities_by_equity` and
`best_position_by_equity` agree: the head of the ranked sequence,
switched back, is the selected best position, and its probabilities,
switched back, are the evaluation of that position. -/
theorem pppe_best_agree {Pos D : Type} (has_lost : Pos → Bool) (switchPos : Pos → Pos)
    (eval : Pos → Probabilities) (aam : Pos → D → List Pos)
    (equity : Probabilities → Flt) (f : Probabilities → ℚ)
    (position : Pos) (dice : D)
    (hsp : ∀ p, switchPos (switchPos p) = p)
    (hq : ∀ pr, equity pr = Flt.val (f pr))
    (hneg : ∀ pr, f pr.switch_sides = - f pr)
    (hnl : ∀ p ∈ aam position dice, has_lost p = false)
    (hinj : ∀ p1 ∈ aam position dice, ∀ p2 ∈ aam position dice,
      f (eval p1) = f (eval p2) → p1 = p2)
    (hne : aam position dice ≠ []) :
    ∃ l e,
      positions_and_probabilities_by_equity switchPos eval aam equity position dice =
        some l ∧
      l.head? = some e ∧
      best_position_by_equity has_lost eval aam equity position dice =
        some (switchPos e.1) ∧
      e.2.switch_sides = eval (switchPos e.1) := by
  have hGe_le : ∀ pr1 pr2 : Probabilities,
      Flt.Ge (equity pr1) (equity pr2) → f pr2 ≤ f pr1 := by
    intro pr1 pr2 hge
    obtain ⟨qa, qb, ha, hb, hle⟩ := hge
    rw [hq pr1] at ha
    injection ha with ha2
    rw [hq pr2] at hb
    injection hb with hb2
    rw [ha2, hb2]
    exact hle
  have hcomp : ∀ x ∈ (aam position dice).map
      (fun pos => (switchPos pos, (eval pos).switch_sides)),
      ∀ y ∈ (aam position dice).map
        (fun pos => (switchPos pos, (eval pos).switch_sides)),
      Flt.cmpOpt (equity y.2) (equity x.2) ≠ none := by
    intro x _ y _
    rw [hq y.2, hq x.2]
    simp [Flt.cmpOpt]
  obtain ⟨l, hl⟩ := sortByOpt_total _ _ hcomp
  have hsorted := sortByOpt_pairwise _
    (fun (a b : Pos × Probabilities) => Flt.Ge (equity a.2) (equity b.2))
    (fun x y hxy => cmpOpt_le hxy) (fun x y hxy => cmpOpt_gt hxy)
    (fun x y z hxy hyz => flt_ge_trans hxy hyz) _ _ hl
  have hperm := sortByOpt_perm _ _ _ hl
  have hlne : l ≠ [] := by
    intro he
    rw [he] at hperm
    have := (List.Perm.eq_nil hperm.symm)
    rw [List.map_eq_nil_iff] at this
    exact hne this
  cases l with
  | nil => exact absurd rfl hlne
  | cons e rest =>
    have hemem : e ∈ (aam position dice).map
        (fun pos => (switchPos pos, (eval pos).switch_sides)) :=
      hperm.subset (List.mem_cons_self _ _)
    obtain ⟨p0, hp0, hp0e⟩ := List.mem_map.mp hemem
    have hmin0 : ∀ p ∈ aam position dice, f (eval p0) ≤ f (eval p) := by
      intro p hp
      have hpent : (switchPos p, (eval p).switch_sides) ∈ e :: rest :=
        hperm.mem_iff.mpr (List.mem_map_of_mem _ hp)
      rcases List.mem_cons.mp hpent with hpe | hprest
      · have h2 : (eval p).switch_sides = e.2 := congrArg Prod.snd hpe
        rw [← hp0e] at h2
        have h3 : f (eval p).switch_sides = f (eval p0).switch_sides := by rw [h2]
        rw [hneg, hneg] at h3
        have : f (eval p) = f (eval p0) := by linarith
        rw [this]
      · have hge := (List.pairwise_cons.mp hsorted).1 _ hprest
        have h2 := hGe_le e.2 (eval p).switch_sides (by rw [← hp0e] at hge ⊢; exact hge)
        rw [← hp0e] at h2
        have h3 : f (eval p).switch_sides ≤ f (eval p0).switch_sides := by
          rw [hp0e] at h2
          rw [← hp0e] at h2
          exact h2
        rw [hneg, hneg] at h3
        linarith
    have hbest : worst_position has_lost eval (aam position dice)
        (fun probabilities => equity probabilities) = some p0 := by
      rcases haam : aam position dice with _ | ⟨a, t⟩
      · rw [haam] at hne
        exact absurd rfl hne
      · rcases t with _ | ⟨b, t2⟩
        · have hp0a : p0 = a := by
            rw [haam] at hp0
            simpa using hp0
          rw [hp0a]
          simp [worst_position]
        · have hlen2 : (a :: b :: t2).length ≠ 1 := by
            simp [List.length_cons]
          have hf : (a :: b :: t2).find? has_lost = none := by
            rw [List.find?_eq_none]
            intro x hx
            rw [hnl x (haam ▸ hx)]
            simp
          have hmap : (a :: b :: t2).map (fun p => (p, equity (eval p))) =
              (a :: b :: t2).map (fun p => (p, Flt.val (f (eval p)))) :=
            List.map_congr_left (by intro p hp; rw [hq])
          have hmin : minByOpt ((a :: b :: t2).map
              (fun p => (p, Flt.val (f (eval p))))) =
              some (argminKey (fun p => f (eval p)) a (b :: t2),
                Flt.val (f (eval (argminKey (fun p => f (eval p)) a (b :: t2))))) :=
            foldl_minStep_val (fun p => f (eval p)) (b :: t2) a
          obtain ⟨pre, post, hsplit, hpre, hminle⟩ :=
            argminKey_decomp (fun p => f (eval p)) (b :: t2) a
          have hargmem : argminKey (fun p => f (eval p)) a (b :: t2) ∈ a :: b :: t2 := by
            rw [hsplit]
            exact List.mem_append_right _ (List.mem_cons_self _ _)
          have harg0 : argminKey (fun p => f (eval p)) a (b :: t2) = p0 := by
            apply hinj _ (haam ▸ hargmem) _ hp0
            have h1 := hmin0 _ (haam ▸ hargmem)
            have h2 := hminle p0 (by rw [← haam]; exact hp0)
            linarith
          simp only [worst_position, if_neg hlen2, hf]
          rw [hmap, hmin, harg0]
          rfl
    refine ⟨e :: rest, e, hl, rfl, ?_, ?_⟩
    · show worst_position has_lost eval (aam position dice)
        (fun probabilities => equity probabilities) = some (switchPos e.1)
      have he1 : e.1 = switchPos p0 := by rw [← hp0e]
      rw [he1, hsp]
      exact hbest
    · have he1 : e.1 = switchPos p0 := by rw [← hp0e]
      have he2 : e.2 = (eval p0).switch_sides := by rw [← hp0e]
      rw [he1, hsp, he2, switch_sides_switch_sides]

/-- The concrete equity value anti-commutes with side switching. -/
theorem wF_switch (pr : Probabilities) : wF pr.switch_sides = - wF pr := by
  simp only [wF, Probabilities.switch_sides]
  ring

/-- The concrete candidate equities are pairwise distinct. -/
theorem wF_inj : ∀ p1 ∈ wAamB true (), ∀ p2 ∈ wAamB true (),
    wF (wEvalB p1) = wF (wEvalB p2) → p1 = p2 := by
  intro p1 h1 p2 h2 heq
  cases p1 <;> cases p2 <;> first
    | rfl
    | (exfalso; simp only [wF, wEvalB, if_pos, if_neg] at heq; norm_num at heq)

/-- Closed witness for C6 at concrete inputs. -/
theorem pppe_best_agree_witness :
    (∀ pr : Probabilities, wEquity pr = Flt.val (wF pr)) ∧
    (∀ pr : Probabilities, wF pr.switch_sides = - wF pr) ∧
    (∀ p ∈ wAamB true (), wHlBF p = false) ∧
    (∃ l e,
      positions_and_probabilities_by_equity wSwitch wEvalB wAamB wEquity true () =
        some l ∧
      l.head? = some e ∧
      best_position_by_equity wHlBF wEvalB wAamB wEquity true () =
        some (wSwitch e.1) ∧
      e.2.switch_sides = wEvalB (wSwitch e.1)) :=
  ⟨fun _ => rfl, wF_switch, by decide,
   pppe_best_agree wHlBF wSwitch wEvalB wAamB wEquity wF true ()
     (by decide) (fun _ => rfl) wF_switch (by decide) wF_inj (by decide)⟩

/-- Counterexample to C6 as stated: two candidates that are both
immediate losses.  The `has_lost` shortcut makes
`best_position_by_equity` return the first candidate, while the ranked
sequence is headed by the entry of the second, higher-equity
candidate. -/
theorem pppe_best_agree_cx :
    positions_and_probabilities_by_equity wSwitch wEvalB wAamB wEquityW true () =
      some [(true, { win_normal := 1, win_gammon := 0, win_bg := 0
                     lose_normal := 0, lose_gammon := 0, lose_bg := 0 }),
            (false, { win_normal := 0, win_gammon := 0, win_bg := 0
                      lose_normal := 1, lose_gammon := 0, lose_bg := 0 })] ∧
    best_position_by_equity wHlBT wEvalB wAamB wEquityW true () = some true ∧
    wSwitch true = false ∧ ((false : Bool) ≠ true) := by
  decide

/-- Playing one ply and then following the trajectory equals following
the trajectory one ply longer. -/
theorem trajFrom_shift {Pos : Type} (bp : Pos → ℕ → ℕ → Pos) (fd : List (ℕ × ℕ))
    (gen : ℕ → ℕ × ℕ) (off : ℕ) (pos : Pos) (iter : ℕ) :
    ∀ j, trajFrom bp fd gen off
        (bp pos (rolloutDiceAt fd gen off iter).1 (rolloutDiceAt fd gen off iter).2)
        (iter + 1) j =
      trajFrom bp fd gen off pos iter (j + 1) := by
  intro j
  induction j with
  | zero => rfl
  | succ j ih =>
    show bp (trajFrom bp fd gen off _ (iter + 1) j) _ _ = bp (trajFrom bp fd gen off pos iter (j + 1)) _ _
    rw [ih]
    have he : iter + 1 + j + 1 = iter + (j + 1) + 1 := by omega
    rw [he]

/-- One unfolding of the `single_rollout` loop, with the stream offset
expressed relative to the starting offset `c0`. -/
theorem singleRolloutAux_step {Pos : Type} (bp : Pos → ℕ → ℕ → Pos)
    (gs : Pos → GameState) (fd : List (ℕ × ℕ)) (gen : ℕ → ℕ × ℕ) (c0 : ℕ)
    (fuel iter : ℕ) (pos : Pos) :
    singleRolloutAux bp gs fd gen (fuel + 1) iter (c0 + (iter - fd.length)) pos =
      match gs (bp pos (rolloutDiceAt fd gen c0 iter).1
          (rolloutDiceAt fd gen c0 iter).2) with
      | GameState.Ongoing =>
        singleRolloutAux bp gs fd gen fuel (iter + 1) (c0 + (iter + 1 - fd.length))
          (bp pos (rolloutDiceAt fd gen c0 iter).1 (rolloutDiceAt fd gen c0 iter).2)
      | GameState.GameOver result =>
        some ((if iter % 2 = 0 then result.reverse else result),
          c0 + (iter + 1 - fd.length)) := by
  simp only [singleRolloutAux, rolloutDiceAt]
  by_cases hlt : iter < fd.length
  · simp only [dif_pos hlt, if_pos hlt]
    have h1 : c0 + (iter - fd.length) = c0 + (iter + 1 - fd.length) := by omega
    rw [h1]
  · simp only [dif_neg hlt, if_neg hlt]
    have h1 : c0 + (iter - fd.length) + 1 = c0 + (iter + 1 - fd.length) := by omega
    rw [h1]

/-- The `single_rollout` loop on a trajectory that stays ongoing for `k`
plies and ends at ply `k`: it returns the parity-normalized result and
the final stream offset. -/
theorem singleRolloutAux_spec {Pos : Type} (bp : Pos → ℕ → ℕ → Pos)
    (gs : Pos → GameState) (fd : List (ℕ × ℕ)) (gen : ℕ → ℕ × ℕ) (c0 : ℕ)
    (r : GameResult) :
    ∀ (k iter : ℕ) (pos : Pos) (fuel : ℕ), k + 1 ≤ fuel →
      (∀ j, j < k → gs (trajFrom bp fd gen c0 pos iter j) = GameState.Ongoing) →
      gs (trajFrom bp fd gen c0 pos iter k) = GameState.GameOver r →
      singleRolloutAux bp gs fd gen fuel iter (c0 + (iter - fd.length)) pos =
        some ((if (iter + k) % 2 = 0 then r.reverse else r),
          c0 + (iter + k + 1 - fd.length)) := by
  intro k
  induction k with
  | zero =>
    intro iter pos fuel hfuel hgoing hover
    obtain ⟨fuel2, rfl⟩ : ∃ m, fuel = m + 1 := ⟨fuel - 1, by omega⟩
    rw [singleRolloutAux_step]
    simp only [trajFrom] at hover
    rw [hover]
    rfl
  | succ k ih =>
    intro iter pos fuel hfuel hgoing hover
    obtain ⟨fuel2, rfl⟩ : ∃ m, fuel = m + 1 := ⟨fuel - 1, by omega⟩
    rw [singleRolloutAux_step]
    have h0 : gs (trajFrom bp fd gen c0 pos iter 0) = GameState.Ongoing :=
      hgoing 0 (Nat.succ_pos k)
    simp only [trajFrom] at h0
    rw [h0]
    have ih2 := ih (iter + 1)
      (bp pos (rolloutDiceAt fd gen c0 iter).1 (rolloutDiceAt fd gen c0 iter).2)
      fuel2 (by omega)
      (by
        intro j hj
        rw [trajFrom_shift]
        exact hgoing (j + 1) (by omega))
      (by
        rw [trajFrom_shift]
        exact hover)
    have e1 : iter + 1 + k = iter + (k + 1) := by omega
    rw [e1] at ih2
    exact ih2

/-- C1 (amended): the parity normalization of `single_rollout`: on a
game whose trajectory stays ongoing for `k` plies and reaches `GameOver
result` at 0-indexed ply `k`, the function returns `result.reverse()`
when `k` is even and `result` unchanged when `k` is odd. -/
theorem single_rollout_parity {Pos : Type} (bp : Pos → ℕ → ℕ → Pos)
    (gs : Pos → GameState) (fromPos : Pos) (first_dice : List (ℕ × ℕ))
    (gen : ℕ → ℕ × ℕ) (off fuel k : ℕ) (r : GameResult)
    (hfuel : k + 1 ≤ fuel)
    (hgoing : ∀ j, j < k →
      gs (trajAfter bp first_dice gen off fromPos j) = GameState.Ongoing)
    (hover : gs (trajAfter bp first_dice gen off fromPos k) = GameState.GameOver r) :
    single_rollout bp gs fromPos first_dice gen off fuel =
      some ((if k % 2 = 0 then r.reverse else r),
        off + (k + 1 - first_dice.length)) := by
  have h := singleRolloutAux_spec bp gs first_dice gen off r k 0 fromPos fuel
    hfuel hgoing hover
  simp only [Nat.zero_sub, Nat.add_zero, Nat.zero_add] at h
  exact h

/-- Closed witness for C1 at a concrete two-ply game: the terminal ply
index `1` is odd, so the result is returned unchanged. -/
theorem single_rollout_parity_witness :
    (∀ j, j < 1 → wGs2 (trajAfter wBp [(3, 4), (5, 6)] wGen 0 0 j) =
      GameState.Ongoing) ∧
    wGs2 (trajAfter wBp [(3, 4), (5, 6)] wGen 0 0 1) =
      GameState.GameOver GameResult.WinGammon ∧
    single_rollout wBp wGs2 0 [(3, 4), (5, 6)] wGen 0 5 =
      some (GameResult.WinGammon, 0) := by
  have hgo : ∀ j, j < 1 → wGs2 (trajAfter wBp [(3, 4), (5, 6)] wGen 0 0 j) =
      GameState.Ongoing := by
    intro j hj
    have hj0 : j = 0 := by omega
    subst hj0
    decide
  refine ⟨hgo, by decide, ?_⟩
  have h := single_rollout_parity wBp wGs2 0 [(3, 4), (5, 6)] wGen 0 5 1
    GameResult.WinGammon (by omega) hgo (by decide)
  simpa using h

/-- Counterexample to C1 as stated: a game that is over directly after
ply 0 — an even ply counter — returns `result.reverse()`, not `result`
unchanged. -/
theorem single_rollout_parity_cx :
    wGs1 (trajAfter wBp [(3, 4)] wGen 0 0 0) = GameState.GameOver GameResult.WinNormal ∧
    single_rollout wBp wGs1 0 [(3, 4)] wGen 0 5 = some (GameResult.LoseNormal, 0) ∧
    GameResult.LoseNormal ≠ GameResult.WinNormal := by
  decide

/-- Bumping one in-range bucket adds one to the histogram sum. -/
theorem sum_set_bump : ∀ (l : List ℕ) (i : ℕ), i < l.length →
    (l.set i (l.getD i 0 + 1)).sum = l.sum + 1 := by
  intro l
  induction l with
  | nil => intro i hi; simp at hi
  | cons a t ih =>
    intro i hi
    cases i with
    | zero =>
      simp only [List.set_cons_zero, List.getD_cons_zero, List.sum_cons]
      omega
    | succ i =>
      simp only [List.set_cons_succ, List.getD_cons_succ, List.sum_cons]
      rw [ih i (by simpa using hi)]
      omega

/-- Every `GameResult` bucket index is in range. -/
theorem toIdx_lt (r : GameResult) : r.toIdx < 6 := by
  cases r <;> decide

/-- The rollout fold from a dead accumulator stays dead. -/
theorem foldl_rolloutStep_none {Pos : Type} (bp : Pos → ℕ → ℕ → Pos)
    (gs : Pos → GameState) (gen : ℕ → ℕ × ℕ) (fuel : ℕ) (pos : Pos) :
    ∀ l : List (ℕ × ℕ × ℕ × ℕ),
      l.foldl (rolloutStep bp gs gen fuel pos) none = none := by
  intro l
  induction l with
  | nil => rfl
  | cons c cs ih => simpa [rolloutStep] using ih

/-- Invariant of the rollout fold: each processed dice combination adds
exactly one to the histogram sum and keeps the six buckets. -/
theorem rolloutFold_inv {Pos : Type} (bp : Pos → ℕ → ℕ → Pos)
    (gs : Pos → GameState) (gen : ℕ → ℕ × ℕ) (fuel : ℕ) (pos : Pos) :
    ∀ (l : List (ℕ × ℕ × ℕ × ℕ)) (results : List ℕ) (off : ℕ),
      results.length = 6 →
      ∀ h2 o2, l.foldl (rolloutStep bp gs gen fuel pos) (some (results, off)) =
          some (h2, o2) →
        h2.length = 6 ∧ h2.sum = results.sum + l.length := by
  intro l
  induction l with
  | nil =>
    intro results off hlen h2 o2 h
    simp only [List.foldl_nil, Option.some.injEq, Prod.mk.injEq] at h
    obtain ⟨h3, _⟩ := h
    rw [← h3]
    exact ⟨hlen, by simp⟩
  | cons c cs ih =>
    intro results off hlen h2 o2 h
    rw [List.foldl_cons] at h
    rcases hstep : single_rollout bp gs pos [(c.1, c.2.1), (c.2.2.1, c.2.2.2)]
        gen off fuel with _ | ⟨r0, offn⟩
    · have hdead : rolloutStep bp gs gen fuel pos (some (results, off)) c = none := by
        simp [rolloutStep, hstep]
      rw [hdead, foldl_rolloutStep_none] at h
      cases h
    · have hstep2 : rolloutStep bp gs gen fuel pos (some (results, off)) c =
          some (results.set r0.toIdx (results.getD r0.toIdx 0 + 1), offn) := by
        simp [rolloutStep, hstep]
      rw [hstep2] at h
      have hlen2 : (results.set r0.toIdx (results.getD r0.toIdx 0 + 1)).length = 6 := by
        simp [hlen]
      obtain ⟨ha, hb⟩ := ih _ _ hlen2 h2 o2 h
      refine ⟨ha, ?_⟩
      rw [hb, sum_set_bump results r0.toIdx (by rw [hlen]; exact toIdx_lt r0)]
      simp only [List.length_cons]
      omega

/-- The four nested loops enumerate 1296 combinations. -/
theorem allDiceCombos_length : allDiceCombos.length = 1296 := by
  show (dieFaces ×ˢ (dieFaces ×ˢ (dieFaces ×ˢ dieFaces))).length = 1296
  rw [List.length_product, List.length_product, List.length_product]
  decide

/-- No combination occurs twice. -/
theorem allDiceCombos_nodup : allDiceCombos.Nodup :=
  List.Nodup.product (by decide)
    (List.Nodup.product (by decide) (List.Nodup.product (by decide) (by decide)))

/-- Die faces are exactly 1 through 6. -/
theorem mem_dieFaces (d : ℕ) : d ∈ dieFaces ↔ 1 ≤ d ∧ d ≤ 6 := by
  simp [dieFaces]
  omega

/-- The enumeration contains exactly the four-face combinations with
every face in 1..6. -/
theorem allDiceCombos_mem (d1 d2 d3 d4 : ℕ) :
    (d1, d2, d3, d4) ∈ allDiceCombos ↔
      (1 ≤ d1 ∧ d1 ≤ 6) ∧ (1 ≤ d2 ∧ d2 ≤ 6) ∧ (1 ≤ d3 ∧ d3 ≤ 6) ∧
        (1 ≤ d4 ∧ d4 ≤ 6) := by
  simp [allDiceCombos, List.pair_mem_product, mem_dieFaces]

/-- C2: `RolloutEvaluator::eval` enumerates all 1296 ordered four-face
dice combinations, each exactly once, runs one single-game simulation
per combination as the forced two-roll prefix, accumulates a six-bucket
histogram summing to exactly 1296, and returns `Probabilities::new` of
that histogram. -/
theorem rollout_eval_exhaustive {Pos : Type} (bp : Pos → ℕ → ℕ → Pos)
    (gs : Pos → GameState) (gen : ℕ → ℕ × ℕ) (fuel : ℕ) (pos : Pos)
    (hist : List ℕ) (off2 : ℕ)
    (h : rolloutEvalHist bp gs gen fuel pos = some (hist, off2)) :
    allDiceCombos.length = 1296 ∧ allDiceCombos.Nodup ∧
    (∀ d1 d2 d3 d4 : ℕ, (d1, d2, d3, d4) ∈ allDiceCombos ↔
      (1 ≤ d1 ∧ d1 ≤ 6) ∧ (1 ≤ d2 ∧ d2 ≤ 6) ∧ (1 ≤ d3 ∧ d3 ≤ 6) ∧
        (1 ≤ d4 ∧ d4 ≤ 6)) ∧
    hist.length = 6 ∧ hist.sum = 1296 ∧
    RolloutEvaluator.eval bp gs gen fuel pos = some (Probabilities.new hist) := by
  have hinv := rolloutFold_inv bp gs gen fuel pos allDiceCombos
    [0, 0, 0, 0, 0, 0] 0 (by decide) hist off2 h
  refine ⟨allDiceCombos_length, allDiceCombos_nodup, allDiceCombos_mem,
    hinv.1, ?_, ?_⟩
  · rw [hinv.2, allDiceCombos_length]
    decide
  · unfold RolloutEvaluator.eval
    rw [h]
    rfl

/-- With the one-point gadget every simulated game ends at once with
`WinNormal`, reversed to `LoseNormal`, and consumes no stream draw. -/
theorem wSingle (off : ℕ) (c : ℕ × ℕ × ℕ × ℕ) :
    single_rollout wBpU wGsU () [(c.1, c.2.1), (c.2.2.1, c.2.2.2)] wGen off 1 =
      some (GameResult.LoseNormal, off) := rfl

/-- The rollout fold with the one-point gadget counts list length into
bucket 3. -/
theorem wFold : ∀ (l : List (ℕ × ℕ × ℕ × ℕ)) (a b c d e f off : ℕ),
    l.foldl (rolloutStep wBpU wGsU wGen 1 ()) (some ([a, b, c, d, e, f], off)) =
      some ([a, b, c, d + l.length, e, f], off) := by
  intro l
  induction l with
  | nil => intro a b c d e f off; simp
  | cons x xs ih =>
    intro a b c d e f off
    rw [List.foldl_cons]
    have hstep : rolloutStep wBpU wGsU wGen 1 () (some ([a, b, c, d, e, f], off)) x =
        some ([a, b, c, d + 1, e, f], off) := by
      simp [rolloutStep, wSingle off x, GameResult.toIdx]
    rw [hstep, ih]
    have he : d + 1 + xs.length = d + (xs.length + 1) := by omega
    simp only [List.length_cons]
    rw [he]

/-- The concrete rollout histogram: 1296 games in bucket 3. -/
theorem wHist : rolloutEvalHist wBpU wGsU wGen 1 () =
    some ([0, 0, 0, 1296, 0, 0], 0) := by
  unfold rolloutEvalHist
  rw [wFold, allDiceCombos_length]

/-- Closed witness for C2 at the one-point gadget. -/
theorem rollout_eval_exhaustive_witness :
    rolloutEvalHist wBpU wGsU wGen 1 () = some ([0, 0, 0, 1296, 0, 0], 0) ∧
    ([0, 0, 0, 1296, 0, 0] : List ℕ).sum = 1296 ∧
    RolloutEvaluator.eval wBpU wGsU wGen 1 () =
      some (Probabilities.new [0, 0, 0, 1296, 0, 0]) :=
  ⟨wHist,
   (rollout_eval_exhaustive wBpU wGsU wGen 1 () _ _ wHist).2.2.2.2.1,
   (rollout_eval_exhaustive wBpU wGsU wGen 1 () _ _ wHist).2.2.2.2.2⟩

/-- C9: `RandomEvaluator::eval` returns the six draws each divided by
their sum; for draws in [0,1) that are not all zero, the six returned
fractions sum to exactly 1. -/
theorem random_eval_normalized (wn wg wb lnn lg lb : ℚ)
    (h0 : 0 ≤ wn ∧ 0 ≤ wg ∧ 0 ≤ wb ∧ 0 ≤ lnn ∧ 0 ≤ lg ∧ 0 ≤ lb)
    (h1 : wn < 1 ∧ wg < 1 ∧ wb < 1 ∧ lnn < 1 ∧ lg < 1 ∧ lb < 1)
    (hz : ¬(wn = 0 ∧ wg = 0 ∧ wb = 0 ∧ lnn = 0 ∧ lg = 0 ∧ lb = 0)) :
    (RandomEvaluator.eval wn wg wb lnn lg lb).win_normal =
      wn / (wn + wg + wb + lnn + lg + lb) ∧
    (RandomEvaluator.eval wn wg wb lnn lg lb).win_gammon =
      wg / (wn + wg + wb + lnn + lg + lb) ∧
    (RandomEvaluator.eval wn wg wb lnn lg lb).win_bg =
      wb / (wn + wg + wb + lnn + lg + lb) ∧
    (RandomEvaluator.eval wn wg wb lnn lg lb).lose_normal =
      lnn / (wn + wg + wb + lnn + lg + lb) ∧
    (RandomEvaluator.eval wn wg wb lnn lg lb).lose_gammon =
      lg / (wn + wg + wb + lnn + lg + lb) ∧
    (RandomEvaluator.eval wn wg wb lnn lg lb).lose_bg =
      lb / (wn + wg + wb + lnn + lg + lb) ∧
    (RandomEvaluator.eval wn wg wb lnn lg lb).win_normal +
      (RandomEvaluator.eval wn wg wb lnn lg lb).win_gammon +
      (RandomEvaluator.eval wn wg wb lnn lg lb).win_bg +
      (RandomEvaluator.eval wn wg wb lnn lg lb).lose_normal +
      (RandomEvaluator.eval wn wg wb lnn lg lb).lose_gammon +
      (RandomEvaluator.eval wn wg wb lnn lg lb).lose_bg = 1 := by
  have hs : wn + wg + wb + lnn + lg + lb ≠ 0 := by
    intro hsum
    apply hz
    obtain ⟨h0a, h0b, h0c, h0d, h0e, h0f⟩ := h0
    refine ⟨by linarith, by linarith, by linarith, by linarith, by linarith,
      by linarith⟩
  refine ⟨rfl, rfl, rfl, rfl, rfl, rfl, ?_⟩
  show wn / (wn + wg + wb + lnn + lg + lb) + wg / (wn + wg + wb + lnn + lg + lb) +
    wb / (wn + wg + wb + lnn + lg + lb) + lnn / (wn + wg + wb + lnn + lg + lb) +
    lg / (wn + wg + wb + lnn + lg + lb) + lb / (wn + wg + wb + lnn + lg + lb) = 1
  rw [div_add_div_same, div_add_div_same, div_add_div_same, div_add_div_same,
    div_add_div_same]
  exact div_self hs

/-- Closed witness for C9 at concrete draws. -/
theorem random_eval_normalized_witness :
    (0 ≤ (1 / 2 : ℚ) ∧ 0 ≤ (1 / 4 : ℚ) ∧ 0 ≤ (0 : ℚ) ∧ 0 ≤ (1 / 8 : ℚ) ∧
      0 ≤ (0 : ℚ) ∧ 0 ≤ (1 / 8 : ℚ)) ∧
    (¬((1 / 2 : ℚ) = 0 ∧ (1 / 4 : ℚ) = 0 ∧ (0 : ℚ) = 0 ∧ (1 / 8 : ℚ) = 0 ∧
      (0 : ℚ) = 0 ∧ (1 / 8 : ℚ) = 0)) ∧
    ((RandomEvaluator.eval (1 / 2) (1 / 4) 0 (1 / 8) 0 (1 / 8)).win_normal =
        (1 / 2 : ℚ) / (1 / 2 + 1 / 4 + 0 + 1 / 8 + 0 + 1 / 8) ∧
      (RandomEvaluator.eval (1 / 2) (1 / 4) 0 (1 / 8) 0 (1 / 8)).win_gammon =
        (1 / 4 : ℚ) / (1 / 2 + 1 / 4 + 0 + 1 / 8 + 0 + 1 / 8) ∧
      (RandomEvaluator.eval (1 / 2) (1 / 4) 0 (1 / 8) 0 (1 / 8)).win_bg =
        (0 : ℚ) / (1 / 2 + 1 / 4 + 0 + 1 / 8 + 0 + 1 / 8) ∧
      (RandomEvaluator.eval (1 / 2) (1 / 4) 0 (1 / 8) 0 (1 / 8)).lose_normal =
        (1 / 8 : ℚ) / (1 / 2 + 1 / 4 + 0 + 1 / 8 + 0 + 1 / 8) ∧
      (RandomEvaluator.eval (1 / 2) (1 / 4) 0 (1 / 8) 0 (1 / 8)).lose_gammon =
        (0 : ℚ) / (1 / 2 + 1 / 4 + 0 + 1 / 8 + 0 + 1 / 8) ∧
      (RandomEvaluator.eval (1 / 2) (1 / 4) 0 (1 / 8) 0 (1 / 8)).lose_bg =
        (1 / 8 : ℚ) / (1 / 2 + 1 / 4 + 0 + 1 / 8 + 0 + 1 / 8) ∧
      (RandomEvaluator.eval (1 / 2) (1 / 4) 0 (1 / 8) 0 (1 / 8)).win_normal +
        (RandomEvaluator.eval (1 / 2) (1 / 4) 0 (1 / 8) 0 (1 / 8)).win_gammon +
        (RandomEvaluator.eval (1 / 2) (1 / 4) 0 (1 / 8) 0 (1 / 8)).win_bg +
        (RandomEvaluator.eval (1 / 2) (1 / 4) 0 (1 / 8) 0 (1 / 8)).lose_normal +
        (RandomEvaluator.eval (1 / 2) (1 / 4) 0 (1 / 8) 0 (1 / 8)).lose_gammon +
        (RandomEvaluator.eval (1 / 2) (1 / 4) 0 (1 / 8) 0 (1 / 8)).lose_bg = 1) :=
  ⟨by norm_num, by norm_num,
   random_eval_normalized (1 / 2) (1 / 4) 0 (1 / 8) 0 (1 / 8)
     (by norm_num) (by norm_num) (by norm_num)⟩

end WildBg
